import Mathlib

/-!
Verification of the K-shortest-paths repository (src/main.py) against its
specification.  The graph container and the shortest-path oracle are the
external collaborators described in section 6 of the spec (networkx in the
source); they are modelled here by an executable digraph structure and a
deterministic Dijkstra that satisfies the oracle contract: it relaxes nodes
in order of tentative distance and keeps the first discovered path when a
relaxation ties, exactly as a binary-heap Dijkstra with an insertion
counter and strict-improvement updates does.  Machine integers do not
overflow in the source (Python), so weights are `Nat`.  Failures raised by
the source (NetworkXNoPath, NodeNotFound, NetworkXError from removing an
absent edge, IndexError, TypeError from a missing edge attribute) are the
constructors of `Err`.

The aliasing bug of the source is modelled explicitly: the caller's graph
object is mutated in place during the first deviation round and the
rebinding `G = G_original` only changes the local name, so the returned
triple carries the final state of the caller's graph object.
-/

deriving instance DecidableEq for Except

abbrev Node := Nat

/-- A weighted digraph: node list and edge list of (source, target, weight),
with at most one edge per ordered pair in well-formed graphs. -/
structure Graph where
  nodes : List Node
  edges : List (Node × Node × Nat)
deriving DecidableEq, Repr

/-- Errors the source can raise: NetworkXNoPath, NodeNotFound,
NetworkXError from removing an absent edge, IndexError from indexing past
the end of a stored path, and TypeError from `get_edge_data` returning
`None` inside `get_path_length`. -/
inductive Err where
  | noPath
  | nodeNotFound
  | edgeAbsent
  | indexErr
  | typeErr
deriving DecidableEq, Repr

/-- `G.get_edge_data(u, v)[weight]`: weight of the edge from `u` to `v`. -/
def getEdgeData (G : Graph) (u v : Node) : Option Nat :=
  (G.edges.find? (fun e => e.1 = u && e.2.1 = v)).map (fun e => e.2.2)

/-- `G.has_edge(u, v)`. -/
def hasEdge (G : Graph) (u v : Node) : Bool :=
  (getEdgeData G u v).isSome

/-- `G.remove_edge(u, v)`; `none` models the NetworkXError raised when the
edge is absent. -/
def removeEdge (G : Graph) (u v : Node) : Option Graph :=
  if hasEdge G u v then
    some ⟨G.nodes, G.edges.filter (fun e => !(e.1 = u && e.2.1 = v))⟩
  else none

/-- `G.remove_nodes_from(ns)`: removes the nodes and their incident edges;
missing nodes are ignored. -/
def removeNodesFrom (G : Graph) (ns : List Node) : Graph :=
  ⟨G.nodes.filter (fun n => !(ns.contains n)),
   G.edges.filter (fun e => !(ns.contains e.1) && !(ns.contains e.2.1))⟩

/-- Outgoing edges of `u` as (target, weight) pairs. -/
def successors (G : Graph) (u : Node) : List (Node × Nat) :=
  G.edges.filterMap (fun e => if e.1 = u then some (e.2.1, e.2.2) else none)

/-- Well-formedness guaranteed by the networkx DiGraph container: node
list without duplicates, at most one edge per ordered pair, and edge
endpoints registered as nodes. -/
def Graph.WF (G : Graph) : Prop :=
  G.nodes.Nodup ∧ (G.edges.map (fun e => (e.1, e.2.1))).Nodup ∧
    ∀ e ∈ G.edges, e.1 ∈ G.nodes ∧ e.2.1 ∈ G.nodes

instance (G : Graph) : Decidable G.WF := by
  unfold Graph.WF; infer_instance

/-- Sum of the edge weights of consecutive pairs; `none` when a pair is
not an edge (the TypeError case of the source). -/
def pairSum (G : Graph) : List Node → Option Nat
  | u :: v :: rest =>
    match getEdgeData G u v, pairSum G (v :: rest) with
    | some w, some r => some (w + r)
    | _, _ => none
  | _ => some 0

/-- `get_path_length(G, path, weight)` from src/main.py line 95: sums the
weight of each consecutive edge pair, returning 0 when the path has at
most one node. -/
def get_path_length (G : Graph) (path : List Node) : Option Nat :=
  if 1 < path.length then pairSum G path else some 0

/-- First frontier entry with minimal tentative distance whose node is
unvisited (ties keep the earliest entry, i.e. the first discovered). -/
def selectMin (visited : List Node) :
    List (Nat × Node × List Node) → Option (Nat × Node × List Node)
  | [] => none
  | e :: es =>
    match selectMin visited es with
    | none => if e.2.1 ∈ visited then none else some e
    | some m =>
      if e.2.1 ∈ visited then some m
      else if e.1 ≤ m.1 then some e else some m

/-- Frontier entries produced by relaxing the out-edges of `u`. -/
def expand (G : Graph) (visited : List Node) (d : Nat) (p : List Node)
    (u : Node) : List (Nat × Node × List Node) :=
  (successors G u).filterMap
    (fun vw => if vw.1 ∈ visited then none else some (d + vw.2, vw.1, p ++ [vw.1]))

/-- Dijkstra main loop; the fuel is an upper bound on the number of
settled nodes and `|G.nodes| + 1` always suffices. -/
def dijkstraAux (G : Graph) (target : Node) :
    Nat → List (Nat × Node × List Node) → List Node → Except Err (Nat × List Node)
  | 0, _, _ => .error .noPath
  | fuel + 1, frontier, visited =>
    match selectMin visited frontier with
    | none => .error .noPath
    | some (d, u, p) =>
      if u = target then .ok (d, p)
      else dijkstraAux G target fuel
        (frontier ++ expand G (u :: visited) d p u) (u :: visited)

/-- The shortest-path oracle `nx.single_source_dijkstra(G, source, target,
weight)` of spec section 6: fails with NodeNotFound when the source is not
in the graph and with NetworkXNoPath when the target is unreachable. -/
def single_source_dijkstra (G : Graph) (source target : Node) :
    Except Err (Nat × List Node) :=
  if source ∈ G.nodes then
    dijkstraAux G target (G.nodes.length + 1) [(0, source, [source])] []
  else .error .nodeNotFound

/-- A candidate of the shared priority queue: the heap entry
`(total_path_length, (total_path, i))` pushed at line 78. -/
abbrev Cand := Nat × List Node × Nat

/-- Python list comparison on node lists (lexicographic, a strict prefix
is smaller). -/
def listLtb : List Nat → List Nat → Bool
  | [], [] => false
  | [], _ :: _ => true
  | _ :: _, [] => false
  | a :: as, b :: bs =>
    if a < b then true else if b < a then false else listLtb as bs

/-- Python tuple comparison on heap entries `(w, (path, i))`: weight
first, then the path lists lexicographically, then the spur index. -/
def candLtb (x y : Cand) : Bool :=
  if x.1 < y.1 then true
  else if y.1 < x.1 then false
  else if listLtb x.2.1 y.2.1 then true
  else if listLtb y.2.1 x.2.1 then false
  else x.2.2 < y.2.2

/-- Leftmost minimal element of the queue under the heap order. -/
def minCand : List Cand → Option Cand
  | [] => none
  | c :: cs =>
    match minCand cs with
    | none => some c
    | some m => if candLtb m c then some m else some c

/-- Remove the first occurrence of a value from the queue. -/
def removeFirst (c : Cand) : List Cand → List Cand
  | [] => []
  | x :: xs => if x = c then xs else x :: removeFirst c xs

/-- `heappop(B)`: returns the minimal entry of the heap under the Python
tuple order together with the remaining entries. -/
def popMinB (B : List Cand) : Option (Cand × List Cand) :=
  match minCand B with
  | none => none
  | some m => some (m, removeFirst m B)

/-- Lines 61-63: for each previously accepted path whose prefix of length
`prevSpur` equals the root path, remove the edge leaving that prefix;
indexing past the end is an IndexError and removing an absent edge a
NetworkXError, both uncaught in the source. -/
def removePrevEdges (H : Graph) (prevSpur : Nat) (root : List Node) :
    List (List Node × Nat) → Except Err Graph
  | [] => .ok H
  | (p, _) :: rest =>
    if p.take prevSpur = root then
      match p.get? prevSpur, p.get? (prevSpur + 1) with
      | some u, some v =>
        match removeEdge H u v with
        | some H1 => removePrevEdges H1 prevSpur root rest
        | none => .error .edgeAbsent
      | _, _ => .error .indexErr
    else removePrevEdges H prevSpur root rest

/-- Lines 65-81, the spur loop over `i` from `prevSpur` to
`len(paths[-1][0]) - 2`: remove the edge leaving the spur node, query the
oracle (NetworkXNoPath ends the loop), push the surviving candidate with
its length measured on the pristine graph, and extend the root path.
`count` is the number of remaining iterations.  Returns the final working
graph (needed because round one mutates the caller's graph object) and
the grown queue. -/
def spurLoop (pristine : Graph) (target : Node) (A : List Node) :
    Nat → Nat → Graph → List Node → List Cand → Except Err (Graph × List Cand)
  | _, 0, H, _, B => .ok (H, B)
  | i, count + 1, H, root, B =>
    match A.get? i, A.get? (i + 1) with
    | some u, some v =>
      match removeEdge H u v with
      | none => .error .edgeAbsent
      | some H1 =>
        match single_source_dijkstra H1 u target with
        | .error .noPath => .ok (H1, B)
        | .error e => .error e
        | .ok (_, sp) =>
          if target ∈ sp then
            match get_path_length pristine (root ++ sp) with
            | none => .error .typeErr
            | some w =>
              spurLoop pristine target A (i + 1) count H1 (root ++ [u])
                (B ++ [(w, root ++ sp, i)])
          else
            spurLoop pristine target A (i + 1) count H1 (root ++ [u]) B
    | _, _ => .error .indexErr

/-- Lines 52-90, the deviation rounds `k = 1 .. K-1`.  `rem` counts the
remaining rounds.  Every round works on the value of the pristine graph
(round one mutates the caller's object, later rounds mutate copies and
`G = G_original` restores only the local name), so `caller` records the
state of the caller's graph object: the working graph at the end of round
one, untouched afterwards. -/
def kspLoop (pristine : Graph) (target : Node) :
    Nat → Nat → List Nat → List (List Node × Nat) → List Cand → Graph →
    Except Err (List Nat × List (List Node × Nat) × Graph)
  | _, 0, lengths, paths, _, caller => .ok (lengths, paths, caller)
  | k, rem + 1, lengths, paths, B, caller =>
    let prevSpur := ((paths.get? (k - 1)).getD ([], 0)).2
    let Alast := (paths.getLast?.getD ([], 0)).1
    let root := Alast.take prevSpur
    let H0 := removeNodesFrom pristine root
    match removePrevEdges H0 prevSpur root paths.dropLast with
    | .error e => .error e
    | .ok H1 =>
      match spurLoop pristine target Alast prevSpur (Alast.length - 1 - prevSpur)
          H1 root B with
      | .error e => .error e
      | .ok (Hf, B1) =>
        let caller1 := if k = 1 then Hf else caller
        match popMinB B1 with
        | none => .ok (lengths, paths, caller1)
        | some ((w, p, si), Brest) =>
          kspLoop pristine target (k + 1) rem (lengths ++ [w])
            (paths ++ [(p, si)]) Brest caller1

/-- `k_shortest_paths(G, source, target, K, weight)` from src/main.py
line 5.  The result carries the lengths, the paths, and the final state
of the caller's graph object. -/
def k_shortest_paths (G : Graph) (source target : Node) (K : Nat) :
    Except Err (List Nat × List (List Node) × Graph) :=
  if source = target then .ok ([0], [[source]], G)
  else
    match single_source_dijkstra G source target with
    | .error e => .error e
    | .ok (length, path) =>
      if target ∈ path then
        match kspLoop G target 1 (K - 1) [length] [(path, 0)] [] G with
        | .error e => .error e
        | .ok (lengths, paths, caller) =>
          .ok (lengths, paths.map (fun p => p.1), caller)
      else .error .noPath

/-- A list of nodes is a walk of `G` when each consecutive pair is
connected by an edge; lists with at most one node are trivially walks. -/
def validWalkb (G : Graph) : List Node → Bool
  | u :: v :: rest => hasEdge G u v && validWalkb G (v :: rest)
  | _ => true

/-- Every edge of `H` is an edge of `P`. -/
def edgeSub (H P : Graph) : Prop := ∀ e ∈ H.edges, e ∈ P.edges

/-- Reachability along edges of `G`. -/
inductive Reaches (G : Graph) (s : Node) : Node → Prop where
  | refl : Reaches G s s
  | tail {v w : Node} : Reaches G s v → hasEdge G v w = true → Reaches G s w

/-- Shape invariant of the Dijkstra frontier: each entry holds a walk of
`G` from the search source `s` to the entry's node. -/
def FrontShape (G : Graph) (s : Node)
    (frontier : List (Nat × Node × List Node)) : Prop :=
  ∀ e ∈ frontier, e.2.2.head? = some s ∧ e.2.2.getLast? = some e.2.1 ∧
    validWalkb G e.2.2 = true

/-- Length invariant of the Dijkstra frontier: each entry's tentative
distance is the summed weight of its stored walk. -/
def FrontLen (G : Graph) (frontier : List (Nat × Node × List Node)) : Prop :=
  ∀ e ∈ frontier, e.2.2.getLast? = some e.2.1 ∧ pairSum G e.2.2 = some e.1

/-- Invariant of the Dijkstra search state used to prove that a NoPath
result really means the target is unreachable. -/
def DijkInv (G : Graph) (s target : Node)
    (frontier : List (Nat × Node × List Node)) (visited : List Node) : Prop :=
  target ∉ visited ∧
  visited.Nodup ∧
  (∀ u ∈ visited, u ∈ G.nodes) ∧
  (∀ e ∈ frontier, e.2.1 ∈ G.nodes) ∧
  (s ∈ visited ∨ ∃ e ∈ frontier, e.2.1 = s) ∧
  (∀ u ∈ visited, ∀ vw ∈ successors G u,
    vw.1 ∈ visited ∨ ∃ e ∈ frontier, e.2.1 = vw.1)

/-- Invariant of the candidate queue: every entry is a walk of the
pristine graph whose stored total weight is its summed edge weight
there. -/
def BInv (pristine : Graph) (B : List Cand) : Prop :=
  ∀ c ∈ B, validWalkb pristine c.2.1 = true ∧
    get_path_length pristine c.2.1 = some c.1

/-- Invariant of the accepted lists: lengths and paths are aligned, every
accepted path is a walk of the pristine graph, and every recorded length
is the summed edge weight of its path there. -/
def PInv (pristine : Graph) (lengths : List Nat)
    (paths : List (List Node × Nat)) : Prop :=
  lengths.length = paths.length ∧
  (∀ p ∈ paths, validWalkb pristine p.1 = true) ∧
  ∀ pr ∈ lengths.zip paths, get_path_length pristine pr.2.1 = some pr.1

def exG1 : Graph := ⟨[0, 1], [(0, 1, 1)]⟩

def exG2 : Graph := ⟨[0, 1, 2, 3], [(0,1,1), (1,2,1), (1,0,1), (0,3,10), (3,2,10)]⟩

def exG3 : Graph := ⟨[0, 1, 2, 3, 4, 5, 6, 7, 8],
  [(0,1,1), (0,2,2), (1,3,1), (1,6,3), (1,8,20), (2,5,2), (3,4,1),
   (6,4,3), (6,2,1), (6,7,5), (7,4,5), (8,4,20), (5,4,2)]⟩

def exG5 : Graph := ⟨[0, 1, 2, 3, 4], [(0,1,1), (1,3,1), (0,2,5), (2,3,5), (1,4,4), (4,3,5)]⟩

def exG7 : Graph := ⟨[0, 1, 2, 3], [(0,1,1), (1,2,1), (2,3,1), (1,3,5)]⟩

def exG10 : Graph := ⟨[0, 1, 2, 3, 4], [(0,1,1), (1,2,1), (1,3,1), (3,2,1), (0,4,3), (4,2,3)]⟩

lemma get_path_length_eq_pairSum (G : Graph) (p : List Node) :
    get_path_length G p = pairSum G p := by
  match p with
  | [] => simp [get_path_length, pairSum]
  | [u] => simp [get_path_length, pairSum]
  | u :: v :: rest => simp [get_path_length]

lemma pairSum_cons_cons (G : Graph) (u v : Node) (rest : List Node) :
    pairSum G (u :: v :: rest) =
      match getEdgeData G u v, pairSum G (v :: rest) with
      | some w, some r => some (w + r)
      | _, _ => none := rfl

lemma pairSum_append_one (G : Graph) :
    ∀ (q : List Node) (d u v w : Nat), q.getLast? = some u →
      pairSum G q = some d → getEdgeData G u v = some w →
      pairSum G (q ++ [v]) = some (d + w) := by
  intro q
  induction q with
  | nil => intro d u v w h; simp at h
  | cons x t ih =>
    intro d u v w hlast hsum hed
    match t with
    | [] =>
      simp at hlast
      subst hlast
      simp [pairSum] at hsum
      subst hsum
      simp [pairSum, hed]
    | y :: t2 =>
      have hlast2 : (y :: t2).getLast? = some u := by
        rw [List.getLast?_cons_cons] at hlast
        exact hlast
      rw [pairSum_cons_cons] at hsum
      cases hxy : getEdgeData G x y with
      | none => rw [hxy] at hsum; simp at hsum
      | some w1 =>
        rw [hxy] at hsum
        cases hrest : pairSum G (y :: t2) with
        | none => rw [hrest] at hsum; simp at hsum
        | some d2 =>
          rw [hrest] at hsum
          simp at hsum
          have hih := ih d2 u v w hlast2 hrest hed
          have happ : (x :: y :: t2) ++ [v] = x :: (y :: (t2 ++ [v])) := by simp
          rw [happ, pairSum_cons_cons, hxy]
          have hih2 : pairSum G (y :: (t2 ++ [v])) = some (d2 + w) := by
            simpa using hih
          rw [hih2]
          simp
          omega

lemma pairSum_spec (G : Graph) :
    ∀ p : List Node, validWalkb G p = true →
      pairSum G p = some
        (((p.zip p.tail).map (fun uv => (getEdgeData G uv.1 uv.2).getD 0)).sum) := by
  intro p
  induction p with
  | nil => intro _; simp [pairSum]
  | cons u t ih =>
    intro hw
    match t with
    | [] => simp [pairSum]
    | v :: rest =>
      simp only [validWalkb, Bool.and_eq_true] at hw
      have hed : (getEdgeData G u v).isSome := hw.1
      cases hge : getEdgeData G u v with
      | none => rw [hge] at hed; cases hed
      | some w =>
        have := ih hw.2
        rw [pairSum_cons_cons, hge, this]
        simp [hge]

lemma validWalkb_append_one (G : Graph) :
    ∀ (q : List Node) (u v : Nat), q.getLast? = some u →
      validWalkb G q = true → hasEdge G u v = true →
      validWalkb G (q ++ [v]) = true := by
  intro q
  induction q with
  | nil => intro u v h; simp at h
  | cons x t ih =>
    intro u v hlast hw hed
    match t with
    | [] =>
      simp at hlast
      subst hlast
      simp [validWalkb, hed]
    | y :: t2 =>
      have hlast2 : (y :: t2).getLast? = some u := by
        rw [List.getLast?_cons_cons] at hlast; exact hlast
      simp only [validWalkb, Bool.and_eq_true] at hw
      have := ih u v hlast2 hw.2 hed
      have hshape : (x :: y :: t2) ++ [v] = x :: ((y :: t2) ++ [v]) := by simp
      rw [hshape]
      rw [List.cons_append] at this
      simp only [validWalkb, Bool.and_eq_true]
      exact ⟨hw.1, this⟩

lemma validWalkb_take (G : Graph) :
    ∀ (p : List Node) (n : Nat), validWalkb G p = true →
      validWalkb G (p.take n) = true := by
  intro p
  induction p with
  | nil => intro n _; simp [validWalkb]
  | cons x t ih =>
    intro n hw
    match n with
    | 0 => simp [validWalkb]
    | n + 1 =>
      match t with
      | [] => simp [validWalkb]
      | y :: t2 =>
        simp only [validWalkb, Bool.and_eq_true] at hw
        match n with
        | 0 => simp [validWalkb]
        | m + 1 =>
          have := ih (m + 1) hw.2
          simp only [List.take]
          simp only [List.take] at this
          simp only [validWalkb, Bool.and_eq_true]
          exact ⟨hw.1, this⟩

lemma validWalkb_append_cons (G : Graph) :
    ∀ (xs : List Node) (u : Node) (ys : List Node),
      validWalkb G (xs ++ [u]) = true → validWalkb G (u :: ys) = true →
      validWalkb G (xs ++ u :: ys) = true := by
  intro xs
  induction xs with
  | nil => intro u ys _ h2; simpa using h2
  | cons x t ih =>
    intro u ys h1 h2
    match t with
    | [] =>
      simp only [List.cons_append, List.nil_append, validWalkb,
        Bool.and_eq_true] at h1 ⊢
      exact ⟨h1.1, h2⟩
    | y :: t2 =>
      simp only [List.cons_append, validWalkb, Bool.and_eq_true] at h1
      have := ih u ys h1.2 h2
      simp only [List.cons_append, validWalkb, Bool.and_eq_true]
      constructor
      · exact h1.1
      · simpa using this

lemma hasEdge_iff_exists (G : Graph) (u v : Node) :
    hasEdge G u v = true ↔ ∃ e ∈ G.edges, e.1 = u ∧ e.2.1 = v := by
  unfold hasEdge getEdgeData
  cases hf : G.edges.find? (fun e => e.1 = u && e.2.1 = v) with
  | none =>
    simp only [Option.map_none', Option.isSome_none, Bool.false_eq_true,
      false_iff]
    rintro ⟨e, he, h1, h2⟩
    have := List.find?_eq_none.mp hf e he
    simp [h1, h2] at this
  | some e =>
    simp only [Option.map_some', Option.isSome_some, true_iff]
    have hmem := List.mem_of_find?_eq_some hf
    have hp := List.find?_some hf
    simp at hp
    exact ⟨e, hmem, hp⟩

lemma hasEdge_mono {H P : Graph} (hsub : edgeSub H P) {u v : Node}
    (h : hasEdge H u v = true) : hasEdge P u v = true := by
  rw [hasEdge_iff_exists] at h ⊢
  obtain ⟨e, he, hp⟩ := h
  exact ⟨e, hsub e he, hp⟩

lemma validWalkb_mono {H P : Graph} (hsub : edgeSub H P) :
    ∀ p, validWalkb H p = true → validWalkb P p = true := by
  intro p
  induction p with
  | nil => intro h; simp [validWalkb]
  | cons x t ih =>
    intro h
    match t with
    | [] => simp [validWalkb]
    | y :: t2 =>
      simp only [validWalkb, Bool.and_eq_true] at h ⊢
      exact ⟨hasEdge_mono hsub h.1, ih h.2⟩

lemma edgeSub_refl (G : Graph) : edgeSub G G := fun _ he => he

lemma edgeSub_trans {A B C : Graph} (h1 : edgeSub A B) (h2 : edgeSub B C) :
    edgeSub A C := fun e he => h2 e (h1 e he)

lemma removeEdge_edgeSub {G H : Graph} {u v : Node}
    (h : removeEdge G u v = some H) : edgeSub H G := by
  unfold removeEdge at h
  split at h
  · cases h
    intro e he
    exact List.mem_of_mem_filter he
  · cases h

lemma removeNodesFrom_edgeSub (G : Graph) (ns : List Node) :
    edgeSub (removeNodesFrom G ns) G := by
  intro e he
  exact List.mem_of_mem_filter he

lemma removePrevEdges_edgeSub {prevSpur : Nat} {root : List Node} :
    ∀ (l : List (List Node × Nat)) (H H1 : Graph),
      removePrevEdges H prevSpur root l = .ok H1 → edgeSub H1 H := by
  intro l
  induction l with
  | nil =>
    intro H H1 h
    simp [removePrevEdges] at h
    subst h
    exact edgeSub_refl H
  | cons p rest ih =>
    intro H H1 h
    unfold removePrevEdges at h
    split at h
    · split at h
      · rename_i u v _ _
        cases hre : removeEdge H u v with
        | none => rw [hre] at h; cases h
        | some H2 =>
          rw [hre] at h
          exact edgeSub_trans (ih H2 H1 h) (removeEdge_edgeSub hre)
      · cases h
    · exact ih H H1 h

lemma listLtb_irrefl : ∀ l : List Nat, listLtb l l = false := by
  intro l
  induction l with
  | nil => rfl
  | cons x t ih => simp [listLtb, ih]

lemma listLtb_trans : ∀ a b c : List Nat, listLtb a b = true →
    listLtb b c = true → listLtb a c = true := by
  intro a
  induction a with
  | nil =>
    intro b c hab hbc
    match b, c with
    | [], _ => simp [listLtb] at hab
    | _ :: _, [] => simp [listLtb] at hbc
    | _ :: _, _ :: _ => simp [listLtb]
  | cons x t ih =>
    intro b c hab hbc
    match b, c with
    | [], _ => simp [listLtb] at hab
    | _ :: _, [] => simp [listLtb] at hbc
    | y :: tb, z :: tc =>
      simp only [listLtb] at hab hbc ⊢
      by_cases hxy : x < y
      · by_cases hyz : y < z
        · rw [if_pos (by omega)]
        · rw [if_pos hxy] at hab
          rw [if_neg hyz] at hbc
          by_cases hzy : z < y
          · rw [if_pos hzy] at hbc; cases hbc
          · have : y = z := by omega
            subst this
            rw [if_pos hxy]
      · rw [if_neg hxy] at hab
        by_cases hyx : y < x
        · rw [if_pos hyx] at hab; cases hab
        · have hxy2 : x = y := by omega
          subst hxy2
          rw [if_neg (by omega)] at hab
          by_cases hxz : x < z
          · rw [if_pos hxz]
          · rw [if_neg hxz] at hbc ⊢
            by_cases hzx : z < x
            · rw [if_pos hzx] at hbc; cases hbc
            · rw [if_neg hzx] at hbc ⊢
              exact ih tb tc hab hbc

lemma listLtb_eq_of_not : ∀ a b : List Nat, listLtb a b = false →
    listLtb b a = false → a = b := by
  intro a
  induction a with
  | nil =>
    intro b hab _
    match b with
    | [] => rfl
    | _ :: _ => simp [listLtb] at hab
  | cons x t ih =>
    intro b hab hba
    match b with
    | [] => simp [listLtb] at hba
    | y :: tb =>
      simp only [listLtb] at hab hba
      by_cases hxy : x < y
      · rw [if_pos hxy] at hab; cases hab
      · by_cases hyx : y < x
        · rw [if_pos hyx] at hba; cases hba
        · have hxy2 : x = y := by omega
          subst hxy2
          rw [if_neg hxy, if_neg hxy] at hab
          rw [if_neg hxy, if_neg hxy] at hba
          rw [ih tb hab hba]

lemma candLtb_irrefl (c : Cand) : candLtb c c = false := by
  unfold candLtb
  simp [listLtb_irrefl]

lemma candLtb_trans {a b c : Cand} (hab : candLtb a b = true)
    (hbc : candLtb b c = true) : candLtb a c = true := by
  obtain ⟨a1, a2, a3⟩ := a
  obtain ⟨b1, b2, b3⟩ := b
  obtain ⟨c1, c2, c3⟩ := c
  unfold candLtb at hab hbc ⊢
  simp only at hab hbc ⊢
  by_cases h1 : a1 < b1
  · by_cases h2 : b1 < c1
    · rw [if_pos (by omega)]
    · rw [if_neg h2] at hbc
      by_cases h3 : c1 < b1
      · rw [if_pos h3] at hbc; cases hbc
      · have : b1 = c1 := by omega
        subst this
        rw [if_pos h1]
  · rw [if_neg h1] at hab
    by_cases h2 : b1 < a1
    · rw [if_pos h2] at hab; cases hab
    · have he1 : a1 = b1 := by omega
      subst he1
      rw [if_neg (by omega)] at hab
      by_cases h3 : a1 < c1
      · rw [if_pos h3]
      · rw [if_neg h3] at hbc ⊢
        by_cases h4 : c1 < a1
        · rw [if_pos h4] at hbc; cases hbc
        · rw [if_neg h4] at hbc ⊢
          by_cases h5 : listLtb a2 b2 = true
          · by_cases h6 : listLtb b2 c2 = true
            · rw [if_pos (listLtb_trans _ _ _ h5 h6)]
            · rw [if_neg h6] at hbc
              by_cases h7 : listLtb c2 b2 = true
              · rw [if_pos h7] at hbc; cases hbc
              · have : b2 = c2 := listLtb_eq_of_not _ _
                  (by simpa using h6) (by simpa using h7)
                subst this
                rw [if_pos h5]
          · rw [if_neg h5] at hab
            by_cases h6 : listLtb b2 a2 = true
            · rw [if_pos h6] at hab; cases hab
            · rw [if_neg h6] at hab
              have he2 : a2 = b2 := listLtb_eq_of_not _ _
                (by simpa using h5) (by simpa using h6)
              subst he2
              by_cases h7 : listLtb a2 c2 = true
              · rw [if_pos h7]
              · rw [if_neg h7] at hbc ⊢
                by_cases h8 : listLtb c2 a2 = true
                · rw [if_pos h8] at hbc; cases hbc
                · rw [if_neg h8] at hbc ⊢
                  simp at hab hbc ⊢
                  omega

lemma candLtb_asymm {a b : Cand} (h : candLtb a b = true) :
    candLtb b a = false := by
  by_contra hc
  simp only [Bool.not_eq_false] at hc
  have := candLtb_trans h hc
  rw [candLtb_irrefl] at this
  cases this

lemma candLtb_eq_of_not {a b : Cand} (hab : candLtb a b = false)
    (hba : candLtb b a = false) : a = b := by
  obtain ⟨a1, a2, a3⟩ := a
  obtain ⟨b1, b2, b3⟩ := b
  unfold candLtb at hab hba
  simp only at hab hba
  by_cases h1 : a1 < b1
  · rw [if_pos h1] at hab; cases hab
  · by_cases h2 : b1 < a1
    · rw [if_pos h2] at hba; cases hba
    · have he1 : a1 = b1 := by omega
      subst he1
      rw [if_neg h1, if_neg h1] at hab hba
      by_cases h3 : listLtb a2 b2 = true
      · rw [if_pos h3] at hab; cases hab
      · by_cases h4 : listLtb b2 a2 = true
        · rw [if_pos h4] at hba; cases hba
        · rw [if_neg h3, if_neg h4] at hab
          rw [if_neg h4, if_neg h3] at hba
          have he2 : a2 = b2 := listLtb_eq_of_not _ _
            (by simpa using h3) (by simpa using h4)
          subst he2
          simp at hab hba
          have : a3 = b3 := by omega
          subst this
          rfl

lemma candLtb_lt_of_lt_of_nlt {x c m : Cand} (h1 : candLtb x c = true)
    (h2 : candLtb m c = false) : candLtb x m = true := by
  cases hmx : candLtb m x with
  | true =>
    have := candLtb_trans hmx h1
    rw [this] at h2
    cases h2
  | false =>
    by_contra hxm
    simp only [Bool.not_eq_true] at hxm
    have := candLtb_eq_of_not hxm hmx
    subst this
    rw [h1] at h2
    cases h2

lemma minCand_cons (c : Cand) (cs : List Cand) :
    minCand (c :: cs) =
      match minCand cs with
      | none => some c
      | some m => if candLtb m c then some m else some c := rfl

lemma minCand_none_iff (B : List Cand) : minCand B = none ↔ B = [] := by
  match B with
  | [] => simp [minCand]
  | c :: cs =>
    rw [minCand_cons]
    cases hmc : minCand cs with
    | none => simp
    | some m =>
      dsimp only
      by_cases hlt : candLtb m c = true
      · rw [if_pos hlt]; simp
      · rw [if_neg hlt]; simp

lemma minCand_mem : ∀ (B : List Cand) (m : Cand), minCand B = some m → m ∈ B := by
  intro B
  induction B with
  | nil => intro m h; simp [minCand] at h
  | cons c cs ih =>
    intro m h
    rw [minCand_cons] at h
    cases hmc : minCand cs with
    | none =>
      rw [hmc] at h
      have : c = m := by injection h
      subst this
      exact List.mem_cons_self c cs
    | some m0 =>
      rw [hmc] at h
      dsimp only at h
      by_cases hlt : candLtb m0 c = true
      · rw [if_pos hlt] at h
        have : m0 = m := by injection h
        subst this
        exact List.mem_cons_of_mem _ (ih m0 hmc)
      · rw [if_neg hlt] at h
        have : c = m := by injection h
        subst this
        exact List.mem_cons_self c cs

lemma minCand_min : ∀ (B : List Cand) (m : Cand), minCand B = some m →
    ∀ c ∈ B, candLtb c m = false := by
  intro B
  induction B with
  | nil => intro m h; simp [minCand] at h
  | cons c cs ih =>
    intro m h x hx
    rw [minCand_cons] at h
    cases hmc : minCand cs with
    | none =>
      rw [hmc] at h
      have : c = m := by injection h
      subst this
      rw [minCand_none_iff] at hmc
      subst hmc
      simp at hx
      subst hx
      exact candLtb_irrefl x
    | some m0 =>
      rw [hmc] at h
      dsimp only at h
      by_cases hlt : candLtb m0 c = true
      · rw [if_pos hlt] at h
        have hmm : m0 = m := by injection h
        rcases List.mem_cons.mp hx with hxc | hxcs
        · subst hxc
          rw [← hmm]
          exact candLtb_asymm hlt
        · rw [← hmm]
          exact ih m0 hmc x hxcs
      · rw [if_neg hlt] at h
        have : c = m := by injection h
        subst this
        rcases List.mem_cons.mp hx with hxc | hxcs
        · subst hxc
          exact candLtb_irrefl x
        · have hxm0 := ih m0 hmc x hxcs
          by_contra hxc2
          simp only [Bool.not_eq_false] at hxc2
          have := candLtb_lt_of_lt_of_nlt hxc2 (by simpa using hlt)
          rw [this] at hxm0
          cases hxm0

lemma removeFirst_sub (c : Cand) : ∀ (l : List Cand) (x : Cand),
    x ∈ removeFirst c l → x ∈ l := by
  intro l
  induction l with
  | nil => intro x h; simp [removeFirst] at h
  | cons y t ih =>
    intro x h
    simp only [removeFirst] at h
    split at h
    · exact List.mem_cons_of_mem _ h
    · rcases List.mem_cons.mp h with h1 | h1
      · simp [h1]
      · exact List.mem_cons_of_mem _ (ih x h1)

lemma popMinB_spec {B : List Cand} {c : Cand} {rest : List Cand}
    (h : popMinB B = some (c, rest)) :
    c ∈ B ∧ (∀ x ∈ B, candLtb x c = false) ∧ ∀ x ∈ rest, x ∈ B := by
  unfold popMinB at h
  cases hm : minCand B with
  | none => rw [hm] at h; cases h
  | some m =>
    rw [hm] at h
    simp at h
    obtain ⟨h1, h2⟩ := h
    subst h2
    subst h1
    exact ⟨minCand_mem B m hm, minCand_min B m hm, removeFirst_sub m B⟩

lemma selectMin_cons (visited : List Node) (x : Nat × Node × List Node)
    (t : List (Nat × Node × List Node)) :
    selectMin visited (x :: t) =
      match selectMin visited t with
      | none => if x.2.1 ∈ visited then none else some x
      | some m =>
        if x.2.1 ∈ visited then some m
        else if x.1 ≤ m.1 then some x else some m := rfl

lemma selectMin_mem (visited : List Node) :
    ∀ (l : List (Nat × Node × List Node)) (e : Nat × Node × List Node),
      selectMin visited l = some e → e ∈ l := by
  intro l
  induction l with
  | nil => intro e h; simp [selectMin] at h
  | cons x t ih =>
    intro e h
    rw [selectMin_cons] at h
    cases hm : selectMin visited t with
    | none =>
      rw [hm] at h
      dsimp only at h
      by_cases hx : x.2.1 ∈ visited
      · rw [if_pos hx] at h; cases h
      · rw [if_neg hx] at h
        have : x = e := by injection h
        subst this
        exact List.mem_cons_self x t
    | some m =>
      rw [hm] at h
      dsimp only at h
      by_cases hx : x.2.1 ∈ visited
      · rw [if_pos hx] at h
        have : m = e := by injection h
        subst this
        exact List.mem_cons_of_mem _ (ih m hm)
      · rw [if_neg hx] at h
        by_cases hle : x.1 ≤ m.1
        · rw [if_pos hle] at h
          have : x = e := by injection h
          subst this
          exact List.mem_cons_self x t
        · rw [if_neg hle] at h
          have : m = e := by injection h
          subst this
          exact List.mem_cons_of_mem _ (ih m hm)

lemma selectMin_not_visited (visited : List Node) :
    ∀ (l : List (Nat × Node × List Node)) (e : Nat × Node × List Node),
      selectMin visited l = some e → e.2.1 ∉ visited := by
  intro l
  induction l with
  | nil => intro e h; simp [selectMin] at h
  | cons x t ih =>
    intro e h
    rw [selectMin_cons] at h
    cases hm : selectMin visited t with
    | none =>
      rw [hm] at h
      dsimp only at h
      by_cases hx : x.2.1 ∈ visited
      · rw [if_pos hx] at h; cases h
      · rw [if_neg hx] at h
        have : x = e := by injection h
        subst this
        exact hx
    | some m =>
      rw [hm] at h
      dsimp only at h
      by_cases hx : x.2.1 ∈ visited
      · rw [if_pos hx] at h
        have : m = e := by injection h
        subst this
        exact ih m hm
      · rw [if_neg hx] at h
        by_cases hle : x.1 ≤ m.1
        · rw [if_pos hle] at h
          have : x = e := by injection h
          subst this
          exact hx
        · rw [if_neg hle] at h
          have : m = e := by injection h
          subst this
          exact ih m hm

lemma selectMin_none (visited : List Node) :
    ∀ (l : List (Nat × Node × List Node)),
      selectMin visited l = none → ∀ e ∈ l, e.2.1 ∈ visited := by
  intro l
  induction l with
  | nil => intro _ e he; simp at he
  | cons x t ih =>
    intro h e he
    rw [selectMin_cons] at h
    cases hm : selectMin visited t with
    | none =>
      rw [hm] at h
      dsimp only at h
      by_cases hx : x.2.1 ∈ visited
      · rcases List.mem_cons.mp he with h1 | h1
        · subst h1; exact hx
        · exact ih hm e h1
      · rw [if_neg hx] at h; cases h
    | some m =>
      rw [hm] at h
      dsimp only at h
      by_cases hx : x.2.1 ∈ visited
      · rw [if_pos hx] at h; cases h
      · rw [if_neg hx] at h
        by_cases hle : x.1 ≤ m.1
        · rw [if_pos hle] at h; cases h
        · rw [if_neg hle] at h; cases h

lemma mem_successors_iff (G : Graph) (u v : Node) (w : Nat) :
    (v, w) ∈ successors G u ↔ (u, v, w) ∈ G.edges := by
  unfold successors
  rw [List.mem_filterMap]
  constructor
  · rintro ⟨e, he, hp⟩
    by_cases h1 : e.1 = u
    · rw [if_pos h1] at hp
      have h2 : e.2.1 = v ∧ e.2.2 = w := by
        injection hp with hp1
        exact ⟨congrArg Prod.fst hp1, congrArg Prod.snd hp1⟩
      have : e = (u, v, w) := by
        obtain ⟨e1, e2, e3⟩ := e
        simp at h1 h2
        simp [h1, h2.1, h2.2]
      rw [← this]
      exact he
    · rw [if_neg h1] at hp
      cases hp
  · intro h
    exact ⟨(u, v, w), h, by simp⟩

lemma successors_hasEdge {G : Graph} {u v : Node} {w : Nat}
    (h : (v, w) ∈ successors G u) : hasEdge G u v = true := by
  rw [mem_successors_iff] at h
  rw [hasEdge_iff_exists]
  exact ⟨(u, v, w), h, rfl, rfl⟩

lemma mem_expand {G : Graph} {vis : List Node} {d : Nat} {p : List Node}
    {u : Node} {e : Nat × Node × List Node} (h : e ∈ expand G vis d p u) :
    ∃ v w, (v, w) ∈ successors G u ∧ v ∉ vis ∧ e = (d + w, v, p ++ [v]) := by
  unfold expand at h
  rw [List.mem_filterMap] at h
  obtain ⟨vw, hvw, hp⟩ := h
  by_cases h1 : vw.1 ∈ vis
  · rw [if_pos h1] at hp; cases hp
  · rw [if_neg h1] at hp
    refine ⟨vw.1, vw.2, by simpa using hvw, h1, ?_⟩
    injection hp with hp1
    rw [← hp1]

lemma frontShape_expand {G : Graph} {s : Node} {vis : List Node} {d : Nat}
    {p : List Node} {u : Node}
    (hp : p.head? = some s ∧ p.getLast? = some u ∧ validWalkb G p = true) :
    FrontShape G s (expand G vis d p u) := by
  intro e he
  obtain ⟨v, w, hsucc, hnv, hev⟩ := mem_expand he
  subst hev
  have hpne : p ≠ [] := by
    intro hnil; rw [hnil] at hp; simp at hp
  refine ⟨?_, ?_, ?_⟩
  · simp only
    rw [List.head?_append_of_ne_nil _ hpne]
    exact hp.1
  · simp only
    rw [List.getLast?_concat]
  · simp only
    exact validWalkb_append_one G p u v hp.2.1 hp.2.2 (successors_hasEdge hsucc)

lemma dijkstraAux_shape {G : Graph} {t s : Node} :
    ∀ (fuel : Nat) (frontier : List (Nat × Node × List Node))
      (visited : List Node) (l : Nat) (p : List Node),
      FrontShape G s frontier →
      dijkstraAux G t fuel frontier visited = .ok (l, p) →
      p.head? = some s ∧ p.getLast? = some t ∧ validWalkb G p = true := by
  intro fuel
  induction fuel with
  | zero => intro fr vis l p _ h; cases h
  | succ n ih =>
    intro fr vis l p hshape h
    unfold dijkstraAux at h
    cases hsel : selectMin vis fr with
    | none => rw [hsel] at h; cases h
    | some e =>
      obtain ⟨d, u, q⟩ := e
      rw [hsel] at h
      dsimp only at h
      by_cases hut : u = t
      · rw [if_pos hut] at h
        have hq := hshape _ (selectMin_mem vis fr _ hsel)
        simp only at hq
        cases h
        subst hut
        exact hq
      · rw [if_neg hut] at h
        have hq := hshape _ (selectMin_mem vis fr _ hsel)
        simp only at hq
        refine ih _ _ l p ?_ h
        intro e2 he2
        rcases List.mem_append.mp he2 with h1 | h1
        · exact hshape e2 h1
        · exact frontShape_expand hq e2 h1

lemma single_source_dijkstra_shape {G : Graph} {s t : Node} {l : Nat}
    {p : List Node} (h : single_source_dijkstra G s t = .ok (l, p)) :
    p.head? = some s ∧ p.getLast? = some t ∧ validWalkb G p = true := by
  unfold single_source_dijkstra at h
  split at h
  · refine dijkstraAux_shape _ _ _ l p ?_ h
    intro e he
    simp at he
    subst he
    simp [validWalkb]
  · cases h

lemma find?_key_unique :
    ∀ (l : List (Node × Node × Nat)),
      (l.map (fun e => (e.1, e.2.1))).Nodup →
      ∀ u v w, (u, v, w) ∈ l →
        l.find? (fun e => e.1 = u && e.2.1 = v) = some (u, v, w) := by
  intro l
  induction l with
  | nil => intro _ u v w h; simp at h
  | cons x t ih =>
    intro hnd u v w hmem
    simp only [List.map_cons, List.nodup_cons] at hnd
    rcases List.mem_cons.mp hmem with h1 | h1
    · rw [← h1]
      apply List.find?_cons_of_pos
      simp
    · by_cases hkey : x.1 = u ∧ x.2.1 = v
      · exfalso
        apply hnd.1
        have hm : ((u, v) : Node × Node) ∈ t.map (fun e => (e.1, e.2.1)) := by
          have := List.mem_map_of_mem (fun e => (e.1, e.2.1)) h1
          simpa using this
        rw [hkey.1, hkey.2]
        exact hm
      · rw [List.find?_cons_of_neg]
        · exact ih hnd.2 u v w h1
        · simp only [Bool.and_eq_true, decide_eq_true_eq]
          exact fun hc => hkey hc

lemma successors_getEdgeData {G : Graph} (hWF : G.WF) {u v : Node} {w : Nat}
    (h : (v, w) ∈ successors G u) : getEdgeData G u v = some w := by
  rw [mem_successors_iff] at h
  unfold getEdgeData
  rw [find?_key_unique G.edges hWF.2.1 u v w h]
  rfl

lemma frontLen_expand {G : Graph} (hWF : G.WF) {vis : List Node} {d : Nat}
    {p : List Node} {u : Node}
    (hp : p.getLast? = some u ∧ pairSum G p = some d) :
    FrontLen G (expand G vis d p u) := by
  intro e he
  obtain ⟨v, w, hsucc, hnv, hev⟩ := mem_expand he
  subst hev
  refine ⟨by simp [List.getLast?_concat], ?_⟩
  exact pairSum_append_one G p d u v w hp.1 hp.2 (successors_getEdgeData hWF hsucc)

lemma dijkstraAux_len {G : Graph} (hWF : G.WF) {t : Node} :
    ∀ (fuel : Nat) (frontier : List (Nat × Node × List Node))
      (visited : List Node) (l : Nat) (p : List Node),
      FrontLen G frontier →
      dijkstraAux G t fuel frontier visited = .ok (l, p) →
      pairSum G p = some l := by
  intro fuel
  induction fuel with
  | zero => intro fr vis l p _ h; cases h
  | succ n ih =>
    intro fr vis l p hlen h
    unfold dijkstraAux at h
    cases hsel : selectMin vis fr with
    | none => rw [hsel] at h; cases h
    | some e =>
      obtain ⟨d, u, q⟩ := e
      rw [hsel] at h
      dsimp only at h
      by_cases hut : u = t
      · rw [if_pos hut] at h
        have hq := hlen _ (selectMin_mem vis fr _ hsel)
        simp only at hq
        cases h
        exact hq.2
      · rw [if_neg hut] at h
        have hq := hlen _ (selectMin_mem vis fr _ hsel)
        simp only at hq
        refine ih _ _ l p ?_ h
        intro e2 he2
        rcases List.mem_append.mp he2 with h1 | h1
        · exact hlen e2 h1
        · exact frontLen_expand hWF hq e2 h1

lemma single_source_dijkstra_len {G : Graph} (hWF : G.WF) {s t : Node}
    {l : Nat} {p : List Node}
    (h : single_source_dijkstra G s t = .ok (l, p)) :
    get_path_length G p = some l := by
  rw [get_path_length_eq_pairSum]
  unfold single_source_dijkstra at h
  split at h
  · refine dijkstraAux_len hWF _ _ _ l p ?_ h
    intro e he
    simp at he
    subst he
    simp [pairSum]
  · cases h

lemma dijkstraAux_error {G : Graph} {t : Node} :
    ∀ (fuel : Nat) (frontier : List (Nat × Node × List Node))
      (visited : List Node) (e : Err),
      dijkstraAux G t fuel frontier visited = .error e → e = .noPath := by
  intro fuel
  induction fuel with
  | zero =>
    intro fr vis e h
    unfold dijkstraAux at h
    cases h
    rfl
  | succ n ih =>
    intro fr vis e h
    unfold dijkstraAux at h
    cases hsel : selectMin vis fr with
    | none =>
      rw [hsel] at h
      cases h
      rfl
    | some m =>
      obtain ⟨d, u, q⟩ := m
      rw [hsel] at h
      dsimp only at h
      by_cases hut : u = t
      · rw [if_pos hut] at h; cases h
      · rw [if_neg hut] at h
        exact ih _ _ e h

lemma single_source_dijkstra_error {G : Graph} {s t : Node} {e : Err}
    (h : single_source_dijkstra G s t = .error e) :
    e = .noPath ∨ e = .nodeNotFound := by
  unfold single_source_dijkstra at h
  split at h
  · exact Or.inl (dijkstraAux_error _ _ _ e h)
  · cases h
    exact Or.inr rfl

lemma removePrevEdges_error {prevSpur : Nat} {root : List Node} :
    ∀ (l : List (List Node × Nat)) (H : Graph) (e : Err),
      removePrevEdges H prevSpur root l = .error e →
      e = .edgeAbsent ∨ e = .indexErr := by
  intro l
  induction l with
  | nil => intro H e h; simp [removePrevEdges] at h
  | cons p rest ih =>
    intro H e h
    unfold removePrevEdges at h
    split at h
    · split at h
      · rename_i u v _ _
        cases hre : removeEdge H u v with
        | none =>
          rw [hre] at h
          cases h
          exact Or.inl rfl
        | some H2 =>
          rw [hre] at h
          exact ih H2 e h
      · cases h
        exact Or.inr rfl
    · exact ih H e h

lemma spurLoop_error {pristine : Graph} {target : Node} {A : List Node} :
    ∀ (count i : Nat) (H : Graph) (root : List Node) (B : List Cand) (e : Err),
      spurLoop pristine target A i count H root B = .error e →
      e ≠ .noPath := by
  intro count
  induction count with
  | zero => intro i H root B e h; cases h
  | succ n ih =>
    intro i H root B e h
    unfold spurLoop at h
    cases hg1 : A.get? i with
    | none =>
      rw [hg1] at h
      cases hg2 : A.get? (i + 1) with
      | none => rw [hg2] at h; dsimp only at h; cases h; simp
      | some v => rw [hg2] at h; dsimp only at h; cases h; simp
    | some u =>
      rw [hg1] at h
      cases hg2 : A.get? (i + 1) with
      | none => rw [hg2] at h; dsimp only at h; cases h; simp
      | some v =>
        rw [hg2] at h
        dsimp only at h
        cases hre : removeEdge H u v with
        | none =>
          rw [hre] at h
          cases h
          simp
        | some H1 =>
          rw [hre] at h
          dsimp only at h
          cases hd : single_source_dijkstra H1 u target with
          | error e2 =>
            rw [hd] at h
            match e2, h with
            | .noPath, h => cases h
            | .nodeNotFound, h => cases h; simp
            | .edgeAbsent, h => cases h; simp
            | .indexErr, h => cases h; simp
            | .typeErr, h => cases h; simp
          | ok lp =>
            obtain ⟨l, sp⟩ := lp
            rw [hd] at h
            dsimp only at h
            by_cases hts : target ∈ sp
            · rw [if_pos hts] at h
              cases hgpl : get_path_length pristine (root ++ sp) with
              | none =>
                rw [hgpl] at h
                cases h
                simp
              | some w =>
                rw [hgpl] at h
                exact ih _ _ _ _ e h
            · rw [if_neg hts] at h
              exact ih _ _ _ _ e h

lemma kspLoop_ne_noPath {pristine : Graph} {target : Node} :
    ∀ (rem k : Nat) (lengths : List Nat) (paths : List (List Node × Nat))
      (B : List Cand) (caller : Graph),
      kspLoop pristine target k rem lengths paths B caller ≠
        .error .noPath := by
  intro rem
  induction rem with
  | zero => intro k lengths paths B caller h; cases h
  | succ n ih =>
    intro k lengths paths B caller h
    unfold kspLoop at h
    dsimp only at h
    cases hrp : removePrevEdges
        (removeNodesFrom pristine
          (((paths.getLast?.getD ([], 0)).1).take ((paths.get? (k - 1)).getD ([], 0)).2))
        ((paths.get? (k - 1)).getD ([], 0)).2
        (((paths.getLast?.getD ([], 0)).1).take ((paths.get? (k - 1)).getD ([], 0)).2)
        paths.dropLast with
    | error e =>
      rw [hrp] at h
      cases h
      rcases removePrevEdges_error _ _ _ hrp with h1 | h1 <;> cases h1
    | ok H1 =>
      rw [hrp] at h
      dsimp only at h
      cases hsl : spurLoop pristine target (paths.getLast?.getD ([], 0)).1
          ((paths.get? (k - 1)).getD ([], 0)).2
          ((paths.getLast?.getD ([], 0)).1.length - 1 -
            ((paths.get? (k - 1)).getD ([], 0)).2) H1
          (((paths.getLast?.getD ([], 0)).1).take
            ((paths.get? (k - 1)).getD ([], 0)).2) B with
      | error e =>
        rw [hsl] at h
        cases h
        exact spurLoop_error _ _ _ _ _ _ hsl rfl
      | ok HB =>
        obtain ⟨Hf, B1⟩ := HB
        rw [hsl] at h
        dsimp only at h
        cases hpop : popMinB B1 with
        | none => rw [hpop] at h; cases h
        | some cr =>
          obtain ⟨⟨w, p, si⟩, Brest⟩ := cr
          rw [hpop] at h
          dsimp only at h
          exact ih _ _ _ _ _ h

lemma reaches_visited_of_exhausted {G : Graph} {s target : Node}
    {frontier : List (Nat × Node × List Node)} {visited : List Node}
    (hinv : DijkInv G s target frontier visited)
    (hsel : selectMin visited frontier = none) :
    ∀ x, Reaches G s x → x ∈ visited := by
  intro x hr
  induction hr with
  | refl =>
    rcases hinv.2.2.2.2.1 with h1 | ⟨e, he, hes⟩
    · exact h1
    · rw [← hes]
      exact selectMin_none visited frontier hsel e he
  | tail hrv hedge ihv =>
    rename_i v w
    rw [hasEdge_iff_exists] at hedge
    obtain ⟨e, he, he1, he2⟩ := hedge
    have hsucc : (w, e.2.2) ∈ successors G v := by
      rw [mem_successors_iff]
      obtain ⟨e1, e2, e3⟩ := e
      simp at he1 he2
      rw [← he1, ← he2]
      exact he
    rcases hinv.2.2.2.2.2 v ihv (w, e.2.2) hsucc with h1 | ⟨e2, he2m, he2s⟩
    · exact h1
    · have he2s2 : e2.2.1 = w := he2s
      rw [← he2s2]
      exact selectMin_none visited frontier hsel e2 he2m

lemma dijkstraAux_complete {G : Graph} {s target : Node} (hWF : G.WF) :
    ∀ (fuel : Nat) (frontier : List (Nat × Node × List Node))
      (visited : List Node),
      DijkInv G s target frontier visited →
      G.nodes.length + 1 ≤ fuel + visited.length →
      dijkstraAux G target fuel frontier visited = .error .noPath →
      ¬ Reaches G s target := by
  intro fuel
  induction fuel with
  | zero =>
    intro fr vis hinv hbud _
    exfalso
    have hlen : vis.length ≤ G.nodes.length := by
      have h1 : vis.toFinset.card = vis.length :=
        List.toFinset_card_of_nodup hinv.2.1
      have h2 : vis.toFinset ⊆ G.nodes.toFinset := by
        intro x hx
        exact List.mem_toFinset.mpr (hinv.2.2.1 x (List.mem_toFinset.mp hx))
      have h3 := Finset.card_le_card h2
      have h4 := G.nodes.toFinset_card_le
      omega
    omega
  | succ n ih =>
    intro fr vis hinv hbud h
    unfold dijkstraAux at h
    cases hsel : selectMin vis fr with
    | none =>
      intro hr
      exact hinv.1 (reaches_visited_of_exhausted hinv hsel target hr)
    | some m =>
      obtain ⟨d, u, q⟩ := m
      rw [hsel] at h
      dsimp only at h
      by_cases hut : u = target
      · rw [if_pos hut] at h; cases h
      · rw [if_neg hut] at h
        have humem : u ∈ G.nodes :=
          hinv.2.2.2.1 _ (selectMin_mem vis fr _ hsel)
        have hunv : u ∉ vis := selectMin_not_visited vis fr _ hsel
        refine ih _ _ ?_ (by simp; omega) h
        refine ⟨?_, ?_, ?_, ?_, ?_, ?_⟩
        · intro hc
          rcases List.mem_cons.mp hc with h1 | h1
          · exact hut h1.symm
          · exact hinv.1 h1
        · exact List.nodup_cons.mpr ⟨hunv, hinv.2.1⟩
        · intro x hx
          rcases List.mem_cons.mp hx with h1 | h1
          · rw [h1]; exact humem
          · exact hinv.2.2.1 x h1
        · intro e he
          rcases List.mem_append.mp he with h1 | h1
          · exact hinv.2.2.2.1 e h1
          · obtain ⟨v, w, hsucc, hnv, hev⟩ := mem_expand h1
            subst hev
            rw [mem_successors_iff] at hsucc
            exact (hWF.2.2 _ hsucc).2
        · rcases hinv.2.2.2.2.1 with h1 | ⟨e, he, hes⟩
          · exact Or.inl (List.mem_cons_of_mem _ h1)
          · exact Or.inr ⟨e, List.mem_append_left _ he, hes⟩
        · intro x hx vw hvw
          rcases List.mem_cons.mp hx with h1 | h1
          · subst h1
            by_cases hv : vw.1 ∈ x :: vis
            · exact Or.inl hv
            · refine Or.inr ⟨(d + vw.2, vw.1, q ++ [vw.1]), ?_, rfl⟩
              refine List.mem_append_right _ ?_
              unfold expand
              rw [List.mem_filterMap]
              refine ⟨vw, hvw, ?_⟩
              rw [if_neg hv]
          · rcases hinv.2.2.2.2.2 x h1 vw hvw with h2 | ⟨e, he, hes⟩
            · exact Or.inl (List.mem_cons_of_mem _ h2)
            · exact Or.inr ⟨e, List.mem_append_left _ he, hes⟩

lemma single_source_dijkstra_complete {G : Graph} {s t : Node} (hWF : G.WF)
    (hs : s ∈ G.nodes)
    (h : single_source_dijkstra G s t = .error .noPath) :
    ¬ Reaches G s t := by
  unfold single_source_dijkstra at h
  rw [if_pos hs] at h
  refine dijkstraAux_complete hWF _ _ _ ?_ (by simp) h
  refine ⟨by simp, by simp, by simp, ?_, ?_, by simp⟩
  · intro e he
    simp at he
    subst he
    exact hs
  · exact Or.inr ⟨(0, s, [s]), by simp, rfl⟩

lemma reaches_extend {G : Graph} {s : Node} :
    ∀ (q : List Node) (v : Node), Reaches G s v →
      validWalkb G (v :: q) = true →
      ∀ t, (v :: q).getLast? = some t → Reaches G s t := by
  intro q
  induction q with
  | nil =>
    intro v hv _ t ht
    simp at ht
    rw [← ht]
    exact hv
  | cons y rest ih =>
    intro v hv hw t ht
    simp only [validWalkb, Bool.and_eq_true] at hw
    have hy : Reaches G s y := Reaches.tail hv hw.1
    rw [List.getLast?_cons_cons] at ht
    exact ih y hy hw.2 t ht

lemma reaches_of_walk {G : Graph} (p : List Node) (s t : Node)
    (hh : p.head? = some s) (hl : p.getLast? = some t)
    (hw : validWalkb G p = true) : Reaches G s t := by
  match p with
  | [] => simp at hh
  | x :: q =>
    simp at hh
    subst hh
    exact reaches_extend q x Reaches.refl hw t hl

lemma getLast?_mem_list {α : Type} : ∀ (l : List α) (a : α),
    l.getLast? = some a → a ∈ l := by
  intro l
  induction l with
  | nil => intro a h; cases h
  | cons x t ih =>
    intro a h
    match t with
    | [] =>
      simp at h
      simp [h]
    | y :: t2 =>
      rw [List.getLast?_cons_cons] at h
      exact List.mem_cons_of_mem _ (ih a h)

lemma spurLoop_BInv {pristine : Graph} {target : Node} {A : List Node}
    (hA : validWalkb pristine A = true) :
    ∀ (count i : Nat) (H : Graph) (root : List Node) (B : List Cand)
      (Hf : Graph) (B1 : List Cand),
      edgeSub H pristine →
      root = A.take i →
      BInv pristine B →
      spurLoop pristine target A i count H root B = .ok (Hf, B1) →
      BInv pristine B1 := by
  intro count
  induction count with
  | zero =>
    intro i H root B Hf B1 _ _ hB h
    cases h
    exact hB
  | succ n ih =>
    intro i H root B Hf B1 hsub hroot hB h
    unfold spurLoop at h
    cases hg1 : A.get? i with
    | none => rw [hg1] at h; cases hg2 : A.get? (i + 1) <;> rw [hg2] at h <;> cases h
    | some u =>
      rw [hg1] at h
      cases hg2 : A.get? (i + 1) with
      | none => rw [hg2] at h; cases h
      | some v =>
        rw [hg2] at h
        dsimp only at h
        cases hre : removeEdge H u v with
        | none => rw [hre] at h; cases h
        | some H1 =>
          rw [hre] at h
          dsimp only at h
          have hsub1 : edgeSub H1 pristine :=
            edgeSub_trans (removeEdge_edgeSub hre) hsub
          cases hd : single_source_dijkstra H1 u target with
          | error e2 =>
            rw [hd] at h
            match e2, h with
            | .noPath, h =>
              cases h
              exact hB
          | ok lp =>
            obtain ⟨l, sp⟩ := lp
            rw [hd] at h
            dsimp only at h
            have hshape := single_source_dijkstra_shape hd
            have hspv : validWalkb pristine sp = true :=
              validWalkb_mono hsub1 sp hshape.2.2
            have hroot1 : root ++ [u] = A.take (i + 1) := by
              rw [hroot, List.take_succ, ← List.get?_eq_getElem?, hg1]
              rfl
            by_cases hts : target ∈ sp
            · rw [if_pos hts] at h
              cases hgpl : get_path_length pristine (root ++ sp) with
              | none => rw [hgpl] at h; cases h
              | some w =>
                rw [hgpl] at h
                refine ih _ _ _ _ _ _ hsub1 hroot1 ?_ h
                intro c hc
                rcases List.mem_append.mp hc with h1 | h1
                · exact hB c h1
                · simp at h1
                  subst h1
                  refine ⟨?_, hgpl⟩
                  match sp, hshape with
                  | sph :: spt, hshape =>
                    have hspu : sph = u := by
                      have := hshape.1
                      simpa using this
                    subst hspu
                    have hwtake : validWalkb pristine (A.take (i + 1)) = true :=
                      validWalkb_take pristine A (i + 1) hA
                    rw [← hroot1] at hwtake
                    simp only
                    rw [hroot]
                    rw [hroot] at hwtake
                    exact validWalkb_append_cons pristine (A.take i) sph spt
                      hwtake hspv
            · rw [if_neg hts] at h
              exact ih _ _ _ _ _ _ hsub1 hroot1 hB h

lemma kspLoop_PInv {pristine : Graph} {target : Node} :
    ∀ (rem k : Nat) (lengths : List Nat) (paths : List (List Node × Nat))
      (B : List Cand) (caller : Graph) (ls : List Nat)
      (ps : List (List Node × Nat)) (Gf : Graph),
      PInv pristine lengths paths →
      BInv pristine B →
      kspLoop pristine target k rem lengths paths B caller = .ok (ls, ps, Gf) →
      PInv pristine ls ps := by
  intro rem
  induction rem with
  | zero =>
    intro k lengths paths B caller ls ps Gf hP _ h
    cases h
    exact hP
  | succ n ih =>
    intro k lengths paths B caller ls ps Gf hP hB h
    unfold kspLoop at h
    dsimp only at h
    cases hrp : removePrevEdges
        (removeNodesFrom pristine
          (((paths.getLast?.getD ([], 0)).1).take ((paths.get? (k - 1)).getD ([], 0)).2))
        ((paths.get? (k - 1)).getD ([], 0)).2
        (((paths.getLast?.getD ([], 0)).1).take ((paths.get? (k - 1)).getD ([], 0)).2)
        paths.dropLast with
    | error e => rw [hrp] at h; cases h
    | ok H1 =>
      rw [hrp] at h
      dsimp only at h
      have hAval : validWalkb pristine (paths.getLast?.getD ([], 0)).1 = true := by
        cases hgl : paths.getLast? with
        | none => simp [validWalkb]
        | some a =>
          simp only [hgl, Option.getD_some]
          exact hP.2.1 a (getLast?_mem_list paths a hgl)
      have hsubH1 : edgeSub H1 pristine :=
        edgeSub_trans (removePrevEdges_edgeSub _ _ _ hrp)
          (removeNodesFrom_edgeSub pristine _)
      cases hsl : spurLoop pristine target (paths.getLast?.getD ([], 0)).1
          ((paths.get? (k - 1)).getD ([], 0)).2
          ((paths.getLast?.getD ([], 0)).1.length - 1 -
            ((paths.get? (k - 1)).getD ([], 0)).2) H1
          (((paths.getLast?.getD ([], 0)).1).take
            ((paths.get? (k - 1)).getD ([], 0)).2) B with
      | error e => rw [hsl] at h; cases h
      | ok HB =>
        obtain ⟨Hf, B1⟩ := HB
        rw [hsl] at h
        dsimp only at h
        have hB1 : BInv pristine B1 :=
          spurLoop_BInv hAval _ _ _ _ _ _ _ hsubH1 rfl hB hsl
        cases hpop : popMinB B1 with
        | none =>
          rw [hpop] at h
          cases h
          exact hP
        | some cr =>
          obtain ⟨⟨w, p, si⟩, Brest⟩ := cr
          rw [hpop] at h
          dsimp only at h
          obtain ⟨hcmem, -, hrest⟩ := popMinB_spec hpop
          have hc := hB1 _ hcmem
          refine ih _ _ _ _ _ _ _ _ ?_ ?_ h
          · refine ⟨?_, ?_, ?_⟩
            · simp [hP.1]
            · intro q hq
              rcases List.mem_append.mp hq with h1 | h1
              · exact hP.2.1 q h1
              · simp at h1
                subst h1
                exact hc.1
            · intro pr hpr
              rw [List.zip_append (by simp [hP.1])] at hpr
              rcases List.mem_append.mp hpr with h1 | h1
              · exact hP.2.2 pr h1
              · simp at h1
                subst h1
                exact hc.2
          · intro c hcm
            exact hB1 c (hrest c hcm)

/-- C1 (code bug): the claim that the caller's graph is unchanged after the
call fails.  On the two-node graph with the single edge 0 -> 1 and K = 2 the
call succeeds, but the caller's graph object has lost that edge: round one
mutates the caller's object in place and the rebinding `G = G_original` at
line 83 restores only the local name, never the caller's object. -/
theorem c1_caller_graph_mutated :
    k_shortest_paths exG1 0 1 2 = .ok ([1], [[0, 1]], ⟨[0, 1], []⟩) ∧
    (⟨[0, 1], []⟩ : Graph) ≠ exG1 := by decide

/-- C2 (code bug): loop-freedom fails.  With K = 3 on `exG2` the third
returned path [0, 1, 0, 3, 2] repeats node 0: line 57 removes only the root
nodes strictly before the spur index from the working graph, and the nodes
passed while the spur index advances (line 80) are never removed, so a spur
path may revisit them. -/
theorem c2_returned_path_with_loop :
    k_shortest_paths exG2 0 2 3 =
      .ok ([2, 20, 22], [[0, 1, 2], [0, 3, 2], [0, 1, 0, 3, 2]],
        ⟨[0, 1, 2, 3], [(1, 0, 1), (0, 3, 10), (3, 2, 10)]⟩) ∧
    ¬ ([0, 1, 0, 3, 2] : List Nat).Nodup := by decide

/-- C3 (code bug): monotonicity fails.  On `exG3` the returned weights are
[3, 6, 7, 14, 9], and 14 > 9: a deviation of an accepted path can be cheaper
than that path, because an edge removed by lines 61-63 in the round that
generated the parent is present again in the later round that processes it
(the prefix test is tied to the current spur index only). -/
theorem c3_weights_not_monotone :
    k_shortest_paths exG3 0 4 5 =
      .ok ([3, 6, 7, 14, 9],
        [[0, 1, 3, 4], [0, 2, 5, 4], [0, 1, 6, 4], [0, 1, 6, 7, 4], [0, 1, 6, 2, 5, 4]],
        ⟨[0, 1, 2, 3, 4, 5, 6, 7, 8],
         [(0,2,2), (1,6,3), (1,8,20), (2,5,2), (6,4,3), (6,2,1), (6,7,5), (7,4,5), (8,4,20), (5,4,2)]⟩) ∧
    ¬ ([3, 6, 7, 14, 9] : List Nat).Pairwise (· ≤ ·) := by decide

/-- C5 (counterexample): insertion-order tie-breaking fails.  On `exG5`
round one pushes (10, ([0,2,3], 0)) first and (10, ([0,1,4,3], 1)) second;
the claim predicts the earlier-pushed [0,2,3] as second result, but heapq
compares the whole tuples (the counter at line 49 is commented out), so the
lexicographically smaller (path, index) pair [0,1,4,3] is popped first. -/
theorem c5_tie_not_insertion_order :
    k_shortest_paths exG5 0 3 2 =
      .ok ([2, 10], [[0, 1, 3], [0, 1, 4, 3]],
        ⟨[0, 1, 2, 3, 4], [(0, 2, 5), (2, 3, 5), (1, 4, 4), (4, 3, 5)]⟩) ∧
    [[0, 1, 3], [0, 1, 4, 3]] ≠ [[0, 1, 3], ([0, 2, 3] : List Nat)] := by decide

/-- C5 (amended): the candidate popped from the shared queue is minimal
under the Python tuple order on (total_weight, (path, spur_index)): a tie in
total weight is broken by the lexicographic order of the path lists and then
by the spur index, not by insertion or discovery order. -/
theorem c5_heap_tie_lex (B : List Cand) (c : Cand) (rest : List Cand)
    (h : popMinB B = some (c, rest)) :
    c ∈ B ∧ ∀ x ∈ B, candLtb x c = false :=
  ⟨(popMinB_spec h).1, (popMinB_spec h).2.1⟩

/-- C5 witness: the amended tie-break rule applied to the concrete queue of
the counterexample run. -/
theorem c5_heap_tie_lex_witness :
    ((10, [0, 1, 4, 3], 1) : Cand) ∈
      [((10, [0, 2, 3], 0) : Cand), (10, [0, 1, 4, 3], 1)] ∧
    ∀ x ∈ [((10, [0, 2, 3], 0) : Cand), (10, [0, 1, 4, 3], 1)],
      candLtb x (10, [0, 1, 4, 3], 1) = false :=
  c5_heap_tie_lex [(10, [0, 2, 3], 0), (10, [0, 1, 4, 3], 1)]
    (10, [0, 1, 4, 3], 1) [(10, [0, 2, 3], 0)] (by decide)

/-- C6: for a source that is a node of a well-formed graph, the call raises
NetworkXNoPath exactly when the target is unreachable from the source in the
input graph (and the source differs from the target, the trivial case being
answered before the oracle is consulted).  The deviation rounds never
surface NetworkXNoPath themselves: mid-round unreachability is caught at
lines 71-74 and only ends candidate generation for that round
(`kspLoop_ne_noPath`). -/
theorem c6_noPath_iff_unreachable (G : Graph) (s t : Node) (K : Nat)
    (hWF : G.WF) (hs : s ∈ G.nodes) :
    k_shortest_paths G s t K = .error .noPath ↔ s ≠ t ∧ ¬ Reaches G s t := by
  constructor
  · intro h
    unfold k_shortest_paths at h
    by_cases hst : s = t
    · rw [if_pos hst] at h; cases h
    · rw [if_neg hst] at h
      refine ⟨hst, ?_⟩
      cases hd : single_source_dijkstra G s t with
      | error e =>
        rw [hd] at h
        dsimp only at h
        have he : e = Err.noPath := by injection h
        subst he
        exact single_source_dijkstra_complete hWF hs hd
      | ok lp =>
        obtain ⟨l, p⟩ := lp
        rw [hd] at h
        dsimp only at h
        have hshape := single_source_dijkstra_shape hd
        have htp : t ∈ p := getLast?_mem_list p t hshape.2.1
        rw [if_pos htp] at h
        cases hloop : kspLoop G t 1 (K - 1) [l] [(p, 0)] [] G with
        | error e =>
          rw [hloop] at h
          have he : e = Err.noPath := by injection h
          subst he
          exact absurd hloop (kspLoop_ne_noPath _ _ _ _ _ _)
        | ok r =>
          obtain ⟨ls0, ps0, caller⟩ := r
          rw [hloop] at h
          cases h
  · rintro ⟨hst, hnr⟩
    unfold k_shortest_paths
    rw [if_neg hst]
    cases hd : single_source_dijkstra G s t with
    | ok lp =>
      exfalso
      obtain ⟨l, p⟩ := lp
      have hshape := single_source_dijkstra_shape hd
      exact hnr (reaches_of_walk p s t hshape.1 hshape.2.1 hshape.2.2)
    | error e =>
      rcases single_source_dijkstra_error hd with h1 | h1
      · subst h1
        rfl
      · exfalso
        subst h1
        unfold single_source_dijkstra at hd
        rw [if_pos hs] at hd
        have := dijkstraAux_error _ _ _ _ hd
        cases this

/-- C6 witness: the equivalence instantiated on a two-node graph with no
edges, where the target is unreachable. -/
theorem c6_noPath_iff_unreachable_witness :
    (⟨[0, 1], []⟩ : Graph).WF ∧ (0 : Node) ∈ (⟨[0, 1], []⟩ : Graph).nodes ∧
    (k_shortest_paths ⟨[0, 1], []⟩ 0 1 1 = .error .noPath ↔
      (0 : Node) ≠ 1 ∧ ¬ Reaches ⟨[0, 1], []⟩ 0 1) :=
  ⟨by decide, by decide,
    c6_noPath_iff_unreachable ⟨[0, 1], []⟩ 0 1 1 (by decide) (by decide)⟩

/-- C7 (code bug): exhaustion fails.  `exG7` has exactly two loopless paths
from 0 to 3 (every path must leave node 0 along its only edge 0 -> 1 and
then reach 3 either through 2 or directly): the returned [0,1,2,3] and the
walk [0,1,3] shown loopless and valid here.  Two is fewer than K = 3, so
the claim demands exactly two results, yet the call returns a single one:
in round one the spur query at node 0 fails (node 0 has no second outgoing
edge) and the `break` at line 74 ends the whole round before the spur at
node 1, whose deviation [0,1,3] exists, is ever tried, after which the
empty queue ends the algorithm. -/
theorem c7_exhaustion_miscount :
    k_shortest_paths exG7 0 3 3 =
      .ok ([3], [[0, 1, 2, 3]], ⟨[0, 1, 2, 3], [(1, 2, 1), (2, 3, 1), (1, 3, 5)]⟩) ∧
    validWalkb exG7 [0, 1, 3] = true ∧ ([0, 1, 3] : List Nat).Nodup ∧
    ([0, 1, 3] : List Nat) ∉ [[0, 1, 2, 3]] := by decide

/-- C8: every returned path is a valid walk of the original input graph
(consecutive nodes joined by an edge there), the two returned lists have
equal length, and each reported weight equals get_path_length of its path
on the original graph. -/
theorem c8_valid_walks_correct_weights (G : Graph) (s t : Node) (K : Nat)
    (hWF : G.WF) (ls : List Nat) (ps : List (List Node)) (Gf : Graph)
    (h : k_shortest_paths G s t K = .ok (ls, ps, Gf)) :
    ls.length = ps.length ∧ (∀ p ∈ ps, validWalkb G p = true) ∧
    ∀ pr ∈ ls.zip ps, get_path_length G pr.2 = some pr.1 := by
  unfold k_shortest_paths at h
  by_cases hst : s = t
  · rw [if_pos hst] at h
    cases h
    refine ⟨rfl, ?_, ?_⟩
    · intro p hp
      simp at hp
      subst hp
      simp [validWalkb]
    · intro pr hpr
      simp at hpr
      subst hpr
      simp [get_path_length]
  · rw [if_neg hst] at h
    cases hd : single_source_dijkstra G s t with
    | error e => rw [hd] at h; cases h
    | ok lp =>
      obtain ⟨l, p⟩ := lp
      rw [hd] at h
      dsimp only at h
      have hshape := single_source_dijkstra_shape hd
      have hlen := single_source_dijkstra_len hWF hd
      by_cases htp : t ∈ p
      · rw [if_pos htp] at h
        cases hloop : kspLoop G t 1 (K - 1) [l] [(p, 0)] [] G with
        | error e => rw [hloop] at h; cases h
        | ok r =>
          obtain ⟨ls0, ps0, caller⟩ := r
          rw [hloop] at h
          dsimp only at h
          have hPinv : PInv G ls0 ps0 := by
            refine kspLoop_PInv _ _ _ _ _ _ _ _ _ ?_ ?_ hloop
            · refine ⟨rfl, ?_, ?_⟩
              · intro q hq
                simp at hq
                subst hq
                exact hshape.2.2
              · intro pr hpr
                simp at hpr
                subst hpr
                exact hlen
            · intro c hc
              simp at hc
          have hinj : ls = ls0 ∧ ps = ps0.map (fun q => q.1) ∧ Gf = caller := by
            injection h with h1
            injection h1 with h2 h3
            injection h3 with h4 h5
            exact ⟨h2.symm, h4.symm, h5.symm⟩
          obtain ⟨hls, hps, -⟩ := hinj
          subst hls
          subst hps
          refine ⟨by simp [hPinv.1], ?_, ?_⟩
          · intro q hq
            rw [List.mem_map] at hq
            obtain ⟨q0, hq0, hq1⟩ := hq
            rw [← hq1]
            exact hPinv.2.1 q0 hq0
          · intro pr hpr
            rw [List.zip_map_right] at hpr
            rw [List.mem_map] at hpr
            obtain ⟨pr0, hpr0, hpr1⟩ := hpr
            rw [← hpr1]
            exact hPinv.2.2 pr0 hpr0
      · rw [if_neg htp] at h
        cases h

/-- C8 witness: the guarantee instantiated on the one-edge graph with
K = 1. -/
theorem c8_valid_walks_correct_weights_witness :
    ([1] : List Nat).length = ([[0, 1]] : List (List Node)).length ∧
    (∀ p ∈ [[0, 1]], validWalkb exG1 p = true) ∧
    ∀ pr ∈ ([1] : List Nat).zip [[0, 1]],
      get_path_length exG1 pr.2 = some pr.1 :=
  c8_valid_walks_correct_weights exG1 0 1 1 (by decide) [1] [[0, 1]] exG1
    (by decide)

/-- C9: on a path all of whose consecutive node pairs are connected by
edges of the graph, get_path_length returns the sum of the weight attribute
over the consecutive pairs, and it returns 0 on any single-node path. -/
theorem c9_path_length_sums (G : Graph) (p : List Node)
    (h : validWalkb G p = true) :
    get_path_length G p = some
      (((p.zip p.tail).map (fun uv => (getEdgeData G uv.1 uv.2).getD 0)).sum) ∧
    ∀ x : Node, get_path_length G [x] = some 0 := by
  refine ⟨?_, ?_⟩
  · rw [get_path_length_eq_pairSum]
    exact pairSum_spec G p h
  · intro x
    simp [get_path_length]

/-- C9 witness: the sum property evaluated on the one-edge graph. -/
theorem c9_path_length_sums_witness :
    get_path_length exG1 [0, 1] = some
      ((([0, 1].zip [0, 1].tail).map
        (fun uv => (getEdgeData exG1 uv.1 uv.2).getD 0)).sum) ∧
    ∀ x : Node, get_path_length exG1 [x] = some 0 :=
  c9_path_length_sums exG1 [0, 1] (by decide)

/-- C10 (code bug): the edge-removal step over previously accepted paths
can fail.  On `exG10` with K = 4 the accepted paths [0,1,2] and [0,1,3,2]
share the continuation edge (0,1) under the empty root path when round
three processes the spur-0 path [0,4,2]; the second `remove_edge` call at
line 63 then raises an uncaught NetworkXError (modelled as `.edgeAbsent`). -/
theorem c10_prev_edge_removal_crash :
    k_shortest_paths exG10 0 2 4 = .error .edgeAbsent := by decide
